import Mathlib

/-!
Verification of the ride-log storage and statistics engine of the `bike`
repository (`bike.py`, `Velociraptor.py`, `gui.py`).

The embedding works on `List Char` strings.  Python floats are modelled as
`PyFloat`: a finite value is a decimal pair `(n, e)` denoting `n / 10^e`,
kept canonical (`e = 0` or `10 ∤ n`), which is exactly the set of values
`float(...)` can produce from the decimal strings this program stores.
IEEE binary rounding of `+` and `/` is not modelled (no claim observes the
rounded values); overflow to `inf` and scientific-notation rendering of
very large or small magnitudes are likewise outside the model.
-/

namespace Bike

/-- Strings of the embedding are plain character lists. -/
abbrev PyStr := List Char

/-- Python exceptions that the modelled code can raise. -/
inductive PyErr where
  | fileNotFound
  | typeError
  | indexError
  | valueError
  | zeroDivision
  deriving DecidableEq, Repr

deriving instance DecidableEq for Except

/-- Model of a Python float: a canonical decimal `n / 10 ^ e`, or one of
the non-finite values. -/
inductive PyFloat where
  | finite (n : Int) (e : Nat)
  | inf
  | ninf
  | nan
  deriving DecidableEq, Repr

/-- Divide out trailing powers of ten so that the pair `(n, e)` is in
canonical form (`e = 0` or the last digit of `n` is not zero). -/
def canonPF : Int → Nat → Int × Nat
  | n, 0 => (n, 0)
  | n, e + 1 => if n % 10 = 0 then canonPF (n / 10) e else (n, e + 1)

/-- A decimal pair is canonical when no trailing zero can be removed. -/
def Canon (n : Int) (e : Nat) : Prop := e = 0 ∨ ¬ (n % 10 = 0)

/-- A `PyFloat` value that the string parser can produce. -/
def CanonPF : PyFloat → Prop
  | .finite n e => Canon n e
  | _ => True

/-- digit character of a digit value. -/
def dChar (d : Nat) : Char := Char.ofNat (48 + d)

/-- numeric value of a digit character. -/
def charVal (c : Char) : Nat := c.toNat - 48

/-- is the character a decimal digit. -/
def isDig (c : Char) : Bool := decide (48 ≤ c.toNat ∧ c.toNat ≤ 57)

/-- base-10 digits of `n`, least significant first, with explicit fuel so
that the kernel can evaluate it. -/
def toDigitsRev : Nat → Nat → List Nat
  | 0, _ => []
  | f + 1, n => if n = 0 then [] else n % 10 :: toDigitsRev f (n / 10)

/-- decimal rendering of a natural number, most significant digit first
(the rendering of Python `str` on a nonnegative int). -/
def natStr (n : Nat) : PyStr :=
  if n = 0 then [dChar 0] else ((toDigitsRev n n).map dChar).reverse

/-- value of a digit string read most significant digit first. -/
def valOf (l : PyStr) : Nat := l.foldl (fun a c => 10 * a + charVal c) 0

/-- left-pad a decimal rendering with zeros to width `k`. -/
def padN (k n : Nat) : PyStr := List.replicate (k - (natStr n).length) (dChar 0) ++ natStr n

/-- whitespace characters stripped by Python `str.strip()` / `float()`. -/
def pyIsSpace (c : Char) : Bool :=
  decide (c = ' ' ∨ c = '\t' ∨ c = '\n' ∨ c = '\r' ∨ c = '\x0b' ∨ c = '\x0c')

/-- Python `str.strip()`: remove leading and trailing whitespace. -/
def pyStrip (s : PyStr) : PyStr :=
  ((s.dropWhile pyIsSpace).reverse.dropWhile pyIsSpace).reverse

/-- ASCII lower-casing, as `str.lower()` does on this program's data. -/
def lowerChar (c : Char) : Char :=
  if 65 ≤ c.toNat ∧ c.toNat ≤ 90 then Char.ofNat (c.toNat + 32) else c

/-- split a string into its longest digit prefix and the remainder. -/
def takeDigs : PyStr → PyStr × PyStr
  | [] => ([], [])
  | c :: cs => if isDig c then (c :: (takeDigs cs).1, (takeDigs cs).2) else ([], c :: cs)

/-- strip an optional leading sign, returning the sign as `1` or `-1`. -/
def splitSign : PyStr → Int × PyStr
  | [] => (1, [])
  | c :: r => if c = '+' then (1, r) else if c = '-' then (-1, r) else (1, c :: r)

/-- exponent part of a float literal, after the `e` marker: an optionally
signed digit string. -/
def parseExpPart (l : PyStr) : Option Int :=
  let p := splitSign l
  let d := takeDigs p.2
  if d.1 = [] ∨ d.2 ≠ [] then none else some (p.1 * valOf d.1)

/-- build the canonical `PyFloat` denoting `sg * n0 * 10 ^ ex`. -/
def mkPF (sg : Int) (n0 : Nat) (ex : Int) : PyFloat :=
  if 0 ≤ ex then .finite (sg * n0 * 10 ^ ex.toNat) 0
  else .finite (canonPF (sg * n0) ex.natAbs).1 (canonPF (sg * n0) ex.natAbs).2

/-- the fraction digits after an optional decimal point. -/
def fracSplit : PyStr → PyStr × PyStr
  | [] => ([], [])
  | c :: r => if c = '.' then takeDigs r else ([], c :: r)

/-- mantissa-and-exponent part of `float()`: digits, optional point and
fraction digits, optional exponent; nothing may remain. -/
def parseDecimalCore (sg : Int) (t : PyStr) : Option PyFloat :=
  let i := takeDigs t
  let f := fracSplit i.2
  if i.1 = [] ∧ f.1 = [] then none
  else
    match f.2 with
    | [] => some (mkPF sg (valOf (i.1 ++ f.1)) (-(f.1.length : Int)))
    | c :: r3 =>
      if c = 'e' ∨ c = 'E' then
        match parseExpPart r3 with
        | some ex => some (mkPF sg (valOf (i.1 ++ f.1)) (ex - f.1.length))
        | none => none
      else none

/-- Python `float(string)`: strip whitespace, optional sign, then either an
`inf`/`nan` keyword or a decimal literal.  (Digit-group underscores and
overflow to infinity are not modelled.) -/
def pyFloatOfString (s : PyStr) : Option PyFloat :=
  let p := splitSign (pyStrip s)
  let low := p.2.map lowerChar
  if low = "inf".toList ∨ low = "infinity".toList then
    some (if p.1 = 1 then PyFloat.inf else PyFloat.ninf)
  else if low = "nan".toList then some PyFloat.nan
  else parseDecimalCore p.1 p.2

/-- Python `str()` of a float (scientific notation for extreme magnitudes
is not modelled; the stores under study never contain it). -/
def pyRepr : PyFloat → PyStr
  | .finite n e =>
    (if n < 0 then ['-'] else []) ++ natStr (n.natAbs / 10 ^ e) ++
      '.' :: (if e = 0 then [dChar 0] else padN e (n.natAbs % 10 ^ e))
  | .inf => "inf".toList
  | .ninf => "-inf".toList
  | .nan => "nan".toList

/-- the next character, if any, is not a digit. -/
def HeadNotDig : PyStr → Prop
  | [] => True
  | c :: _ => isDig c = false

/-- A `struct_time`-style timestamp, as far as this program observes it. -/
structure Ts where
  year : Nat
  month : Nat
  day : Nat
  hour : Nat
  minute : Nat
  second : Nat
  deriving DecidableEq, Repr

/-- model of `time.strftime("%Y-%m-%d %H:%M:%S", t)` with zero-padded fields. -/
def renderTs (t : Ts) : PyStr :=
  padN 4 t.year ++ '-' :: (padN 2 t.month ++ '-' :: (padN 2 t.day ++ ' ' ::
    (padN 2 t.hour ++ ':' :: (padN 2 t.minute ++ ':' :: padN 2 t.second))))

/-- exactly four digits (the `%Y` pattern of `_strptime`). -/
def take4 : PyStr → Option (Nat × PyStr)
  | a :: b :: c :: d :: r =>
    if isDig a && isDig b && isDig c && isDig d then some (valOf [a, b, c, d], r)
    else none
  | _ => none

/-- one or two digits, greedily (the 1-2 digit field patterns of `_strptime`). -/
def take2 : PyStr → Option (Nat × PyStr)
  | [] => none
  | c :: cs =>
    if isDig c then
      match cs with
      | c2 :: cs2 =>
        if isDig c2 then some (10 * charVal c + charVal c2, cs2)
        else some (charVal c, c2 :: cs2)
      | [] => some (charVal c, [])
    else none

/-- require a literal character. -/
def expectChar (c : Char) : PyStr → Option PyStr
  | [] => none
  | x :: r => if x = c then some r else none

/-- model of `time.strptime(s, "%Y-%m-%d %H:%M:%S")`: four-digit year, bounded
1-2 digit fields, the whole string must be consumed. -/
def parseTs (s : PyStr) : Option Ts :=
  match take4 s with
  | none => none
  | some (y, r1) =>
    match expectChar '-' r1 with
    | none => none
    | some r2 =>
      match take2 r2 with
      | none => none
      | some (mo, r3) =>
        if mo < 1 ∨ 12 < mo then none else
        match expectChar '-' r3 with
        | none => none
        | some r4 =>
          match take2 r4 with
          | none => none
          | some (d, r5) =>
            if d < 1 ∨ 31 < d then none else
            match expectChar ' ' r5 with
            | none => none
            | some r6 =>
              match take2 r6 with
              | none => none
              | some (hh, r7) =>
                if 23 < hh then none else
                match expectChar ':' r7 with
                | none => none
                | some r8 =>
                  match take2 r8 with
                  | none => none
                  | some (mi, r9) =>
                    if 59 < mi then none else
                    match expectChar ':' r9 with
                    | none => none
                    | some r10 =>
                      match take2 r10 with
                      | none => none
                      | some (ss, r11) =>
                        if 61 < ss then none else
                        match r11 with
                        | [] => some ⟨y, mo, d, hh, mi, ss⟩
                        | _ => none

/-- timestamps in the range of the fixed format. -/
def ValidTs (t : Ts) : Prop :=
  t.year < 10000 ∧ 1 ≤ t.month ∧ t.month ≤ 12 ∧ 1 ≤ t.day ∧ t.day ≤ 31 ∧
    t.hour ≤ 23 ∧ t.minute ≤ 59 ∧ t.second ≤ 61

/-- the CSV quote character (double quote). -/
def qChar : Char := Char.ofNat 34

/-- QUOTE_MINIMAL: a field is quoted when it contains the delimiter, the
quote character, or a line-terminator character. -/
def needsQuote (f : PyStr) : Bool :=
  f.any fun c => c = ',' || c = qChar || c = '\n' || c = '\r'

/-- double every embedded quote character. -/
def escField : PyStr → PyStr
  | [] => []
  | c :: r => if c = qChar then qChar :: qChar :: escField r else c :: escField r

/-- one field as `csv.writer` (QUOTE_MINIMAL, doublequote) emits it. -/
def encodeField (f : PyStr) : PyStr :=
  if needsQuote f then qChar :: (escField f ++ [qChar]) else f

/-- the encoded fields joined by the delimiter. -/
def joinEnc : List PyStr → PyStr
  | [] => []
  | [f] => encodeField f
  | f :: fs => encodeField f ++ ',' :: joinEnc fs

/-- one row as `csv.writer.writerow` persists it: joined fields plus the
line terminator (the writer emits CRLF; reading the file back in text mode
yields LF, so the model uses LF throughout). -/
def encodeRow (fields : List PyStr) : PyStr := joinEnc fields ++ ['\n']

/-- states of the `csv.reader` record parser. -/
inductive CsvSt where
  | sr
  | sf
  | inField
  | inQuoted
  | qq
  deriving DecidableEq, Repr

/-- the `csv.reader` state machine for the comma/double-quote dialect with
doubled-quote escaping: `acc` is the field, `row` the record in progress.
`sr` is start-of-record, `sf` start-of-field, `qq` just after a quote seen
inside a quoted field. -/
def csvRun : PyStr → CsvSt → PyStr → List PyStr → List (List PyStr)
  | [], .sr, _, _ => []
  | [], .sf, _, row => [row ++ [[]]]
  | [], .inField, acc, row => [row ++ [acc]]
  | [], .inQuoted, acc, row => [row ++ [acc]]
  | [], .qq, acc, row => [row ++ [acc]]
  | c :: cs, .sr, _, _ =>
    if c = '\n' then [] :: csvRun cs .sr [] []
    else if c = ',' then csvRun cs .sf [] [[]]
    else if c = qChar then csvRun cs .inQuoted [] []
    else csvRun cs .inField [c] []
  | c :: cs, .sf, _, row =>
    if c = '\n' then (row ++ [[]]) :: csvRun cs .sr [] []
    else if c = ',' then csvRun cs .sf [] (row ++ [[]])
    else if c = qChar then csvRun cs .inQuoted [] row
    else csvRun cs .inField [c] row
  | c :: cs, .inField, acc, row =>
    if c = '\n' then (row ++ [acc]) :: csvRun cs .sr [] []
    else if c = ',' then csvRun cs .sf [] (row ++ [acc])
    else csvRun cs .inField (acc ++ [c]) row
  | c :: cs, .inQuoted, acc, row =>
    if c = qChar then csvRun cs .qq acc row
    else csvRun cs .inQuoted (acc ++ [c]) row
  | c :: cs, .qq, acc, row =>
    if c = qChar then csvRun cs .inQuoted (acc ++ [qChar]) row
    else if c = '\n' then (row ++ [acc]) :: csvRun cs .sr [] []
    else if c = ',' then csvRun cs .sf [] (row ++ [acc])
    else csvRun cs .inField (acc ++ [c]) row

/-- model of `csv.reader` applied to the whole store content. -/
def parseRows (content : PyStr) : List (List PyStr) := csvRun content .sr [] []

/-- an in-memory ride as decoded from one row (without its id). -/
structure RideData where
  timestamp : Ts
  distance : PyFloat
  duration : PyFloat
  comment : PyStr
  url : PyStr
  deriving DecidableEq, Repr

/-- a decoded ride together with its enumeration id. -/
structure Ride extends RideData where
  id : Nat
  deriving DecidableEq, Repr

/-- the five fields `add_ride` and `migrate` write for one ride:
`timestamp.strftime(TIMESTR)`, `str(distance)`, `str(duration)`, comment,
url. -/
def rideFields (r : RideData) : List PyStr :=
  [renderTs r.timestamp, pyRepr r.distance, pyRepr r.duration, r.comment, r.url]

/-- the line `add_ride` appends for one ride. -/
def encodeRideLine (r : RideData) : PyStr := encodeRow (rideFields r)

/-- the on-disk store: `none` when `~/.bikerides` does not exist. -/
abbrev Store := Option PyStr

/-- model of `bike.add_ride`: open in append mode (creating the file if missing) and
write one row at the end. -/
def add_ride (r : RideData) (fs : Store) : Store :=
  some (fs.getD [] ++ encodeRideLine r)

/-- the `year` argument of `read_db_file`: absent (`False`), a single int,
a list of ints, or the string `"all"` that `Velociraptor.load_data` passes. -/
inductive YearArg where
  | default
  | one (y : Nat)
  | many (ys : List Nat)
  | all
  deriving DecidableEq, Repr

/-- the `years` value computed at the top of `read_db_file`: either a list
of ints or a string (which `hasattr(year, '__contains__')` lets through). -/
inductive YearSet where
  | list (ys : List Nat)
  | str (s : PyStr)
  deriving DecidableEq, Repr

/-- the computation `if not year: ... elif not hasattr(year, '__contains__'): ... else:`:
falsy values (`False`, `0`, `[]`) select the current year, an int becomes a
one-element list, a list or the string `"all"` is kept as is. -/
def yearSet (current : Nat) : YearArg → YearSet
  | .default => .list [current]
  | .one y => if y = 0 then .list [current] else .list [y]
  | .many ys => if ys = [] then .list [current] else .list ys
  | .all => .str ("all".toList)

/-- the test `ride['timestamp'].tm_year in years`: list membership, or a `TypeError`
when `years` is a string (`int in str` raises). -/
def memYears : YearSet → Nat → Except PyErr Bool
  | .list ys, y => .ok (ys.contains y)
  | .str _, _ => .error .typeError

/-- the body of the `read_db_file` loop for one csv row: build the ride
dict (`IndexError` on a row with fewer than five fields, `ValueError` from
`time.strptime` or `float`; extra fields are ignored). -/
def decodeRide (row : List PyStr) (id : Nat) : Except PyErr Ride :=
  match row with
  | r0 :: r1 :: r2 :: r3 :: r4 :: _ =>
    match parseTs r0 with
    | none => .error .valueError
    | some ts =>
      match pyFloatOfString r1 with
      | none => .error .valueError
      | some dist =>
        match pyFloatOfString r2 with
        | none => .error .valueError
        | some dur => .ok ⟨⟨ts, dist, dur, r3, r4⟩, id⟩
  | _ => .error .indexError

/-- the `for id, ride_row in enumerate(rides_reader)` loop: decode each row
in order, keep the rides whose year is selected; the first exception aborts
the whole load. -/
def loadRows (ys : YearSet) : List (List PyStr) → Nat → Except PyErr (List Ride)
  | [], _ => .ok []
  | row :: rows, i =>
    match decodeRide row i with
    | .error e => .error e
    | .ok r =>
      match memYears ys r.timestamp.year with
      | .error e => .error e
      | .ok true =>
        match loadRows ys rows (i + 1) with
        | .error e => .error e
        | .ok rs => .ok (r :: rs)
      | .ok false => loadRows ys rows (i + 1)

/-- a string free of carriage returns (the only strings text-mode reading
passes through unchanged). -/
def NoCR (l : PyStr) : Prop := ∀ c ∈ l, ¬ c = '\r'

/-- skip the LF of a CRLF pair: one leading LF is consumed. -/
def dropLF : PyStr → PyStr
  | [] => []
  | c :: rest => if c = '\n' then rest else c :: rest

/-- universal-newline translation performed by text-mode `open` on read:
CRLF and a lone CR both become LF.  Explicit fuel keeps the recursion
after the CRLF lookahead kernel-evaluable. -/
def univNewlinesAux : Nat → PyStr → PyStr
  | 0, _ => []
  | _ + 1, [] => []
  | f + 1, c :: rest =>
    if c = '\r' then '\n' :: univNewlinesAux f (dropLF rest)
    else c :: univNewlinesAux f rest

/-- the store content as `open(RIDEDB)` (text mode, universal newlines)
delivers it to `csv.reader`. -/
def univNewlines (l : PyStr) : PyStr := univNewlinesAux l.length l

/-- model of `read_db_file` applied to the content of an existing store
file: text-mode reading first translates CR and CRLF to LF, then
`csv.reader` splits the rows. -/
def readDbContent (current : Nat) (ya : YearArg) (content : PyStr) :
    Except PyErr (List Ride) :=
  loadRows (yearSet current ya) (parseRows (univNewlines content)) 0

/-- model of `bike.read_db_file`: `open(RIDEDB)` raises `FileNotFoundError` when the
store file does not exist; otherwise parse, decode and filter. -/
def read_db_file (current : Nat) (ya : YearArg) (fs : Store) :
    Except PyErr (List Ride) :=
  match fs with
  | none => .error .fileNotFound
  | some content => readDbContent current ya content

/-- model of `read_db_file` with its file effect made explicit: the result together
with the store state after the call (the file is opened for reading only). -/
def read_db_file_st (current : Nat) (ya : YearArg) (fs : Store) :
    Except PyErr (List Ride) × Store :=
  (read_db_file current ya fs, fs)

/-- the content `migrate` writes: every loaded ride re-encoded, in order. -/
def writeAll (rides : List Ride) : PyStr :=
  (rides.map fun r => encodeRow (rideFields r.toRideData)).flatten

/-- model of `bike.migrate`: `rides = read_db_file()` — with the DEFAULT year filter —
then rewrite the whole file with those rides re-encoded.  On a read error
the file is untouched and the exception propagates. -/
def migrate (current : Nat) (fs : Store) : Except PyErr Store :=
  match read_db_file current .default fs with
  | .error e => .error e
  | .ok rides => .ok (some (writeAll rides))

/-- Python `str.split(sep)`: split on every occurrence, keeping empty
pieces (`"1h".split('h') == ['1', '']`). -/
def pySplitSep (sep : Char) : PyStr → List PyStr
  | [] => [[]]
  | c :: cs =>
    if c = sep then [] :: pySplitSep sep cs
    else
      match pySplitSep sep cs with
      | r :: rs => (c :: r) :: rs
      | [] => [[c]]

/-- addition of Python floats (sums of decimals are exact). -/
def pyAdd : PyFloat → PyFloat → PyFloat
  | .finite n1 e1, .finite n2 e2 =>
    (fun p : Int × Nat => .finite p.1 p.2)
      (canonPF (n1 * 10 ^ (max e1 e2 - e1) + n2 * 10 ^ (max e1 e2 - e2)) (max e1 e2))
  | .nan, _ => .nan
  | _, .nan => .nan
  | .inf, .ninf => .nan
  | .ninf, .inf => .nan
  | .inf, _ => .inf
  | _, .inf => .inf
  | .ninf, _ => .ninf
  | _, .ninf => .ninf

/-- the division `minutes / MINUTES_PER_HOUR`: exact when the quotient is decimal,
otherwise truncated to six extra decimal digits (IEEE rounding is not
modelled; no claim observes the inexact case). -/
def pyDiv60 : PyFloat → PyFloat
  | .finite n e =>
    if n % 3 = 0 then
      (fun p : Int × Nat => .finite p.1 p.2) (canonPF (5 * (n / 3)) (e + 2))
    else
      (fun p : Int × Nat => .finite p.1 p.2) (canonPF (n * 50000 / 3) (e + 6))
  | x => x

/-- model of `bike.parse_duration`: strip, try `float`, otherwise split on `':'` or
`'h'` and convert the pieces (an empty piece makes `float('')` raise). -/
def parse_duration (s : PyStr) : Except PyErr PyFloat :=
  let t := pyStrip s
  match pyFloatOfString t with
  | some v => .ok v
  | none =>
    match (if t.contains ':' then some ':' else
           if t.contains 'h' then some 'h' else none) with
    | none => .error .valueError
    | some sep =>
      match pySplitSep sep t with
      | [hs, ms] =>
        (match pyFloatOfString hs, pyFloatOfString ms with
         | some hv, some mv => .ok (pyAdd hv (pyDiv60 mv))
         | _, _ => .error .valueError)
      | [hs] =>
        (match pyFloatOfString hs with
         | some hv => .ok (pyAdd hv (pyDiv60 (.finite 0 0)))
         | none => .error .valueError)
      | _ => .error .valueError

/-- total division of Python floats for a nonzero divisor (exact when the
quotient is decimal, truncated to twelve extra digits otherwise; the zero
divisor is rejected by `pyDiv` before this is reached). -/
def pyDivT : PyFloat → PyFloat → PyFloat
  | .nan, _ => .nan
  | _, .nan => .nan
  | .finite n1 e1, .finite n2 e2 =>
    (fun p : Int × Nat => .finite p.1 p.2) (canonPF (n1 * 10 ^ (e2 + 12) / n2) (e1 + 12))
  | .finite _ _, .inf => .finite 0 0
  | .finite _ _, .ninf => .finite 0 0
  | .inf, .finite n _ => if n < 0 then .ninf else .inf
  | .ninf, .finite n _ => if n < 0 then .inf else .ninf
  | .inf, .inf => .nan
  | .inf, .ninf => .nan
  | .ninf, .inf => .nan
  | .ninf, .ninf => .nan

/-- Python `/` on floats: `ZeroDivisionError` whenever the divisor is zero
(`x / 0.0` raises even for infinite or nan `x`). -/
def pyDiv (a b : PyFloat) : Except PyErr PyFloat :=
  match b with
  | .finite n _ => if n = 0 then .error .zeroDivision else .ok (pyDivT a b)
  | _ => .ok (pyDivT a b)

/-- the guard `ride['duration'] != 0`. -/
def pyNe0 : PyFloat → Bool
  | .finite n _ => if n = 0 then false else true
  | _ => true

/-- the formatting `'{:.1f}'.format`; the exact rounding mode is immaterial to the claims,
the model truncates toward zero to one decimal digit. -/
def fmt1f : PyFloat → PyStr
  | .finite n e =>
    if e ≤ 1 then pyRepr (.finite (n * 10 ^ (1 - e)) 1)
    else pyRepr (.finite (n / 10 ^ (e - 1)) 1)
  | v => pyRepr v

/-- the speed cell of `format_ride` (`Velociraptor.format_ride` and
`gui.format_ride`; `bike.print_rides` has the same guarded pattern):
division guarded by `!= 0`, with the `'nan'` sentinel. -/
def format_ride_speed (r : Ride) : PyStr :=
  if pyNe0 r.duration then fmt1f (pyDivT r.distance r.duration) else "nan".toList

/-- the `speeds` list comprehension of `VelociraptorGui.get_graph_data` and
of `gui.VelociraptorGui._init_graph_view`: `ride['distance'] /
ride['duration']` with no guard. -/
def graphSpeeds : List Ride → Except PyErr (List PyFloat)
  | [] => .ok []
  | r :: rs =>
    match pyDiv r.distance r.duration with
    | .error e => .error e
    | .ok v =>
      match graphSpeeds rs with
      | .error e => .error e
      | .ok vs => .ok (v :: vs)

/-- model of `itertools.accumulate` from a first value. -/
def accumulateFrom (a : PyFloat) : List PyFloat → List PyFloat
  | [] => [a]
  | y :: ys => a :: accumulateFrom (pyAdd a y) ys

/-- model of `list(itertools.accumulate(...))`. -/
def accumulate : List PyFloat → List PyFloat
  | [] => []
  | x :: xs => accumulateFrom x xs

/-- model of `VelociraptorGui.get_graph_data` (and the body of
`gui._init_graph_view`): cumulative distances, dates, and the unguarded
per-ride speeds. -/
def get_graph_data (rides : List Ride) :
    Except PyErr (List PyFloat × List Ts × List PyFloat) :=
  match graphSpeeds rides with
  | .error e => .error e
  | .ok speeds =>
    .ok (accumulate (rides.map fun r => r.distance),
         rides.map fun r => r.timestamp, speeds)

/-- re-assign dense ids starting at `i` (what enumeration during a reload
does to the in-memory rides). -/
def reindexFrom (i : Nat) : List Ride → List Ride
  | [] => []
  | r :: rs => { r with id := i } :: reindexFrom (i + 1) rs

/-- The load the spec describes: decode every line of the unfiltered file
in order — the whole load fails on the first bad line — assigning `id` =
zero-based position among all decoded lines, then keep exactly the rides
whose timestamp year is in the filter.  Stated from the spec's words, to be
compared with `read_db_file`. -/
def decodeAll : List (List PyStr) → Nat → Except PyErr (List Ride)
  | [], _ => .ok []
  | row :: rows, i =>
    match decodeRide row i with
    | .error e => .error e
    | .ok r =>
      match decodeAll rows (i + 1) with
      | .error e => .error e
      | .ok rs => .ok (r :: rs)

/-- spec-side load: decode every line of the file as read (text mode
translates CR and CRLF to LF before the csv split), then filter by year. -/
def loadSpec (ys : List Nat) (content : PyStr) : Except PyErr (List Ride) :=
  match decodeAll (parseRows (univNewlines content)) 0 with
  | .error e => .error e
  | .ok rs => .ok (rs.filter fun r => ys.contains r.timestamp.year)

/-- a ride every field of which the current encoding represents exactly:
timestamp in the fixed format's range, finite decimal nonnegative distance,
finite decimal duration, and comment and url text free of carriage returns
(text-mode reading turns CR and CRLF into LF, so a CR-bearing field cannot
survive a round trip; the delimiter, the quote character and embedded line
feeds all can). -/
def ValidRideData (r : RideData) : Prop :=
  ValidTs r.timestamp ∧
  (∃ n e, r.distance = .finite n e ∧ Canon n e ∧ 0 ≤ n) ∧
  (∃ n e, r.duration = .finite n e ∧ Canon n e) ∧
  NoCR r.comment ∧ NoCR r.url

/-- the concrete valid ride used to witness C6; its comment contains both
the delimiter and the quote character. -/
def rideC6 : RideData :=
  ⟨⟨2024, 7, 4, 13, 21, 48⟩, .finite 75 0, .finite 15 1,
    ("Commute, with a ".toList ++ [qChar] ++ "stop".toList ++ [qChar]),
    "http://example.com/1".toList⟩

/-- the concrete two-ride store (one 2022 ride, one 2023 ride) used to
witness C8. -/
def storeC8 : PyStr :=
  "2022-05-01 10:00:00,10,1.0,first,\n2023-06-02 11:00:00,20,2.0,second,\n".toList

theorem canonPF_canon (n : Int) (e : Nat) : Canon (canonPF n e).1 (canonPF n e).2 := by
  induction e generalizing n with
  | zero => simp [canonPF, Canon]
  | succ e ih =>
    simp only [canonPF]
    by_cases h : n % 10 = 0
    · simpa [h] using ih (n / 10)
    · simp [h, Canon]

theorem canonPF_eq_self (n : Int) (e : Nat) (h : Canon n e) : canonPF n e = (n, e) := by
  cases e with
  | zero => rfl
  | succ e =>
    rcases h with h | h
    · exact absurd h (Nat.succ_ne_zero e)
    · simp [canonPF, h]

theorem charVal_dChar (d : Nat) (h : d < 10) : charVal (dChar d) = d := by
  interval_cases d <;> decide

theorem isDig_dChar (d : Nat) (h : d < 10) : isDig (dChar d) = true := by
  interval_cases d <;> decide

theorem toDigitsRev_eq_digits (f n : Nat) (h : n < 10 ^ f) :
    toDigitsRev f n = Nat.digits 10 n := by
  induction f generalizing n with
  | zero =>
    have : n = 0 := by simpa using h
    simp [this, toDigitsRev]
  | succ f ih =>
    by_cases h0 : n = 0
    · simp [h0, toDigitsRev]
    · rw [toDigitsRev, if_neg h0, Nat.digits_def' (by norm_num : 1 < 10) (Nat.pos_of_ne_zero h0),
        ih (n / 10) (by rw [pow_succ] at h; omega)]

theorem natStr_eq_digits (n : Nat) :
    natStr n = if n = 0 then [dChar 0] else ((Nat.digits 10 n).map dChar).reverse := by
  rw [natStr, toDigitsRev_eq_digits n n (Nat.lt_pow_self (by norm_num) n)]

theorem valOf_go (l : PyStr) (a : Nat) :
    l.foldl (fun a c => 10 * a + charVal c) a =
      a * 10 ^ l.length + valOf l := by
  induction l generalizing a with
  | nil => simp [valOf]
  | cons c cs ih =>
    simp only [List.foldl_cons, valOf, ih (10 * a + charVal c), ih (10 * 0 + charVal c),
      List.length_cons]
    ring

theorem valOf_append (a b : PyStr) :
    valOf (a ++ b) = valOf a * 10 ^ b.length + valOf b := by
  simp only [valOf, List.foldl_append]
  exact valOf_go b (List.foldl (fun a c => 10 * a + charVal c) 0 a)

theorem valOf_natStr (n : Nat) : valOf (natStr n) = n := by
  rw [natStr_eq_digits]
  by_cases h : n = 0
  · simp [h, valOf, charVal, dChar]
  · simp only [h, if_false]
    have hd : ∀ l : List Nat, (∀ d ∈ l, d < 10) →
        valOf ((l.map dChar).reverse) = Nat.ofDigits 10 l := by
      intro l hl
      induction l with
      | nil => simp [valOf]
      | cons d ds ih =>
        have hdlt : d < 10 := hl d (List.mem_cons_self d ds)
        simp only [List.map_cons, List.reverse_cons, valOf_append, Nat.ofDigits_cons]
        rw [ih (fun x hx => hl x (List.mem_cons_of_mem d hx))]
        simp only [valOf, List.foldl_cons, List.foldl_nil, List.length_singleton, pow_one,
          charVal_dChar d hdlt]
        omega
    rw [hd _ (fun d hdm => Nat.digits_lt_base (by norm_num) hdm)]
    exact Nat.ofDigits_digits 10 n

theorem natStr_all_dig (n : Nat) : ∀ c ∈ natStr n, isDig c = true := by
  rw [natStr_eq_digits]
  by_cases h : n = 0
  · simp [h]; decide
  · simp only [h, if_false]
    intro c hc
    rw [List.mem_reverse, List.mem_map] at hc
    obtain ⟨d, hdm, rfl⟩ := hc
    exact isDig_dChar d (Nat.digits_lt_base (by norm_num) hdm)

theorem natStr_ne_nil (n : Nat) : natStr n ≠ [] := by
  rw [natStr_eq_digits]
  by_cases h : n = 0
  · simp [h]
  · simp only [h, if_false, ne_eq, List.reverse_eq_nil_iff, List.map_eq_nil_iff]
    simpa using Nat.digits_ne_nil_iff_ne_zero.mpr h

theorem natStr_length_le (n k : Nat) (h : n < 10 ^ k) : (natStr n).length ≤ max k 1 := by
  rw [natStr_eq_digits]
  by_cases h0 : n = 0
  · simp [h0]
  · simp only [h0, if_false, List.length_reverse, List.length_map]
    by_contra hgt
    push_neg at hgt
    have hlen : k + 1 ≤ (Nat.digits 10 n).length := by omega
    have h1 : 10 ^ (Nat.digits 10 n).length ≤ 10 * n :=
      Nat.base_pow_length_digits_le 10 n (by norm_num) h0
    have h2 : 10 ^ (k + 1) ≤ 10 ^ (Nat.digits 10 n).length :=
      Nat.pow_le_pow_right (by norm_num) hlen
    rw [pow_succ] at h2
    omega

theorem valOf_replicate_zero_append (j : Nat) (l : PyStr) :
    valOf (List.replicate j (dChar 0) ++ l) = valOf l := by
  induction j with
  | zero => simp
  | succ j ih => simpa [List.replicate_succ, valOf, charVal, dChar] using ih

theorem valOf_padN (k n : Nat) : valOf (padN k n) = n := by
  rw [padN, valOf_replicate_zero_append, valOf_natStr]

theorem padN_all_dig (k n : Nat) : ∀ c ∈ padN k n, isDig c = true := by
  intro c hc
  rcases List.mem_append.mp hc with hc | hc
  · rw [List.eq_of_mem_replicate hc]; decide
  · exact natStr_all_dig n c hc

theorem padN_length (k n : Nat) (hk : 1 ≤ k) (h : n < 10 ^ k) : (padN k n).length = k := by
  have hle := natStr_length_le n k h
  have hne := natStr_ne_nil n
  have hpos : 1 ≤ (natStr n).length := List.length_pos.mpr hne
  simp only [padN, List.length_append, List.length_replicate]
  omega

theorem isDig_toNat {c : Char} (h : isDig c = true) : 48 ≤ c.toNat ∧ c.toNat ≤ 57 :=
  of_decide_eq_true h

theorem not_space_of_isDig {c : Char} (h : isDig c = true) : pyIsSpace c = false := by
  rw [pyIsSpace, decide_eq_false_iff_not]
  rintro (rfl | rfl | rfl | rfl | rfl | rfl) <;> exact absurd h (by decide)

theorem ne_plus_of_isDig {c : Char} (h : isDig c = true) : ¬ c = '+' := by
  rintro rfl; exact absurd h (by decide)

theorem ne_minus_of_isDig {c : Char} (h : isDig c = true) : ¬ c = '-' := by
  rintro rfl; exact absurd h (by decide)

theorem lowerChar_of_isDig {c : Char} (h : isDig c = true) : lowerChar c = c := by
  have := isDig_toNat h
  rw [lowerChar, if_neg (by omega)]

theorem dropWhile_eq_self_of_all {p : Char → Bool} (l : PyStr)
    (h : ∀ c ∈ l, p c = false) : l.dropWhile p = l := by
  cases l with
  | nil => rfl
  | cons c cs => simp [List.dropWhile_cons, h c (List.mem_cons_self c cs)]

theorem pyStrip_eq_self (l : PyStr) (h : ∀ c ∈ l, pyIsSpace c = false) :
    pyStrip l = l := by
  rw [pyStrip, dropWhile_eq_self_of_all l h,
    dropWhile_eq_self_of_all _ (fun c hc => h c (List.mem_reverse.mp hc)),
    List.reverse_reverse]

theorem takeDigs_append (a b : PyStr) (ha : ∀ c ∈ a, isDig c = true)
    (hb : HeadNotDig b) : takeDigs (a ++ b) = (a, b) := by
  induction a with
  | nil =>
    cases b with
    | nil => rfl
    | cons c cs =>
      have hb' : isDig c = false := hb
      simp [List.nil_append, takeDigs, hb']
  | cons c cs ih =>
    have hrec := ih (fun x hx => ha x (List.mem_cons_of_mem c hx))
    simp [List.cons_append, takeDigs, ha c (List.mem_cons_self c cs), hrec]

theorem pyRepr_all_not_space (v : PyFloat) : ∀ c ∈ pyRepr v, pyIsSpace c = false := by
  cases v with
  | inf => decide
  | ninf => decide
  | nan => decide
  | finite n e =>
    intro c hc
    simp only [pyRepr, List.append_assoc, List.mem_append, List.mem_cons] at hc
    rcases hc with hc | hc | rfl | hc
    · split at hc
      · rw [List.mem_singleton] at hc; subst hc; decide
      · exact absurd hc (List.not_mem_nil c)
    · exact not_space_of_isDig (natStr_all_dig _ c hc)
    · decide
    · split at hc
      · rw [List.mem_singleton] at hc; subst hc; decide
      · exact not_space_of_isDig (padN_all_dig _ _ c hc)

theorem sign_mul_natAbs (n : Int) : (if n < 0 then (-1 : Int) else 1) * n.natAbs = n := by
  by_cases h : n < 0
  · rw [if_pos h, Int.ofNat_natAbs_of_nonpos (le_of_lt h)]; ring
  · rw [if_neg h, one_mul, Int.natAbs_of_nonneg (not_lt.mp h)]

theorem ne_i_of_isDig {c : Char} (h : isDig c = true) : ¬ c = 'i' := by
  rintro rfl; exact absurd h (by decide)

theorem ne_n_of_isDig {c : Char} (h : isDig c = true) : ¬ c = 'n' := by
  rintro rfl; exact absurd h (by decide)

theorem map_lower_ne_inf {c : Char} (rest : PyStr) (h : isDig c = true) :
    ¬ (lowerChar c :: rest = "inf".toList ∨ lowerChar c :: rest = "infinity".toList) := by
  have hl := lowerChar_of_isDig h
  rintro (hk | hk)
  · rw [hl, show ("inf".toList : PyStr) = 'i' :: ['n', 'f'] from rfl,
      List.cons.injEq] at hk
    exact ne_i_of_isDig h hk.1
  · rw [hl,
      show ("infinity".toList : PyStr) = 'i' :: ['n', 'f', 'i', 'n', 'i', 't', 'y'] from rfl,
      List.cons.injEq] at hk
    exact ne_i_of_isDig h hk.1

theorem map_lower_ne_nan {c : Char} (rest : PyStr) (h : isDig c = true) :
    ¬ lowerChar c :: rest = "nan".toList := by
  have hl := lowerChar_of_isDig h
  intro hk
  rw [hl, show ("nan".toList : PyStr) = 'n' :: ['a', 'n'] from rfl,
    List.cons.injEq] at hk
  exact ne_n_of_isDig h hk.1

theorem splitSign_minus (r : PyStr) : splitSign ('-' :: r) = (-1, r) := rfl

theorem splitSign_digit {c : Char} (h : isDig c = true) (r : PyStr) :
    splitSign (c :: r) = (1, c :: r) := by
  simp only [splitSign]
  rw [if_neg (ne_plus_of_isDig h), if_neg (ne_minus_of_isDig h)]

theorem canonPF_mul10 (x : Int) : canonPF (x * 10) 1 = (x, 0) := by
  rw [canonPF, if_pos (Int.mul_emod_left x 10), Int.mul_ediv_cancel x (by norm_num), canonPF]

theorem parseDecimalCore_core (sg : Int) (S Fr : PyStr) (hS : ∀ c ∈ S, isDig c = true)
    (hSne : S ≠ []) (hFr : ∀ c ∈ Fr, isDig c = true) :
    parseDecimalCore sg (S ++ '.' :: Fr) =
      some (mkPF sg (valOf (S ++ Fr)) (-(Fr.length : Int))) := by
  have htake1 : takeDigs (S ++ '.' :: Fr) = (S, '.' :: Fr) :=
    takeDigs_append _ _ hS (show isDig '.' = false by decide)
  have htake2 : takeDigs Fr = (Fr, []) := by
    have h2 := takeDigs_append Fr [] hFr trivial
    rwa [List.append_nil] at h2
  simp only [parseDecimalCore, htake1, fracSplit, if_pos rfl, if_true, htake2, hSne,
    false_and, if_false]

theorem parseDecimalCore_repr (sg : Int) (m e : Nat) :
    parseDecimalCore sg (natStr (m / 10 ^ e) ++ '.' ::
      (if e = 0 then [dChar 0] else padN e (m % 10 ^ e))) =
    some (.finite (canonPF (sg * m) e).1 (canonPF (sg * m) e).2) := by
  by_cases he : e = 0
  · subst he
    rw [show (if 0 = 0 then [dChar 0] else padN 0 (m % 10 ^ 0)) = [dChar 0] from rfl]
    rw [parseDecimalCore_core sg _ _ (natStr_all_dig _) (natStr_ne_nil _) (by decide)]
    rw [valOf_append, valOf_natStr, show valOf [dChar 0] = 0 from by decide,
      show ([dChar 0] : PyStr).length = 1 from rfl]
    rw [show (10 : Nat) ^ 0 = 1 from rfl, Nat.div_one]
    rw [mkPF, if_neg (by decide)]
    have hx : (sg * ((m * 10 ^ 1 + 0 : Nat) : Int)) = (sg * m) * 10 := by push_cast; ring
    simp only [Int.natAbs_neg, Int.natAbs_ofNat]
    rw [hx, canonPF_mul10]
    rfl
  · rw [if_neg he]
    rw [parseDecimalCore_core sg _ _ (natStr_all_dig _) (natStr_ne_nil _) (padN_all_dig _ _)]
    have hepos : 1 ≤ e := Nat.one_le_iff_ne_zero.mpr he
    have hlt : m % 10 ^ e < 10 ^ e := Nat.mod_lt _ (Nat.pos_pow_of_pos e (by norm_num))
    rw [valOf_append, valOf_natStr, valOf_padN, padN_length e _ hepos hlt, Nat.div_add_mod']
    rw [mkPF, if_neg (by omega)]
    simp only [Int.natAbs_neg, Int.natAbs_ofNat]

theorem pyFloatOfString_pyRepr (v : PyFloat) (h : CanonPF v) :
    pyFloatOfString (pyRepr v) = some v := by
  cases v with
  | inf => decide
  | ninf => decide
  | nan => decide
  | finite n e =>
    have hstrip := pyStrip_eq_self _ (pyRepr_all_not_space (.finite n e))
    obtain ⟨c, cs, hcs⟩ : ∃ c cs, natStr (n.natAbs / 10 ^ e) = c :: cs := by
      cases hx : natStr (n.natAbs / 10 ^ e) with
      | nil => exact absurd hx (natStr_ne_nil _)
      | cons c cs => exact ⟨c, cs, rfl⟩
    have hcdig : isDig c = true := by
      apply natStr_all_dig (n.natAbs / 10 ^ e); rw [hcs]; exact List.mem_cons_self c cs
    have hcan : canonPF ((if n < 0 then (-1 : Int) else 1) * n.natAbs) e = (n, e) := by
      rw [sign_mul_natAbs, canonPF_eq_self n e h]
    by_cases hn : n < 0
    · have hrepr : pyRepr (.finite n e) = '-' :: ((c :: cs) ++ '.' ::
          (if e = 0 then [dChar 0] else padN e (n.natAbs % 10 ^ e))) := by
        simp only [pyRepr, if_pos hn, hcs]
        rfl
      simp only [pyFloatOfString]
      rw [hstrip.trans hrepr]
      simp only [splitSign_minus]
      simp only [List.cons_append, List.map_cons]
      rw [if_neg (map_lower_ne_inf _ hcdig), if_neg (map_lower_ne_nan _ hcdig)]
      rw [← List.cons_append, ← hcs, parseDecimalCore_repr]
      rw [if_pos hn] at hcan
      rw [hcan]
    · have hrepr : pyRepr (.finite n e) = (c :: cs) ++ '.' ::
          (if e = 0 then [dChar 0] else padN e (n.natAbs % 10 ^ e)) := by
        simp only [pyRepr, if_neg hn, hcs]
        rfl
      simp only [pyFloatOfString]
      rw [hstrip.trans hrepr]
      simp only [List.cons_append]
      simp only [splitSign_digit hcdig]
      simp only [List.map_cons]
      rw [if_neg (map_lower_ne_inf _ hcdig), if_neg (map_lower_ne_nan _ hcdig)]
      rw [← List.cons_append, ← hcs, parseDecimalCore_repr]
      rw [if_neg hn, one_mul] at hcan
      rw [show ((1 : Int) * n.natAbs) = (n.natAbs : Int) from one_mul _, hcan]

theorem charVal_le9 {c : Char} (h : isDig c = true) : charVal c ≤ 9 := by
  have := isDig_toNat h
  rw [charVal]; omega

theorem valOf_lt_pow (l : PyStr) (h : ∀ c ∈ l, isDig c = true) :
    valOf l < 10 ^ l.length := by
  induction l with
  | nil => simp [valOf]
  | cons c cs ih =>
    have h1 : valOf (c :: cs) = charVal c * 10 ^ cs.length + valOf cs := by
      have := valOf_append [c] cs
      simpa [valOf, List.length_cons] using this
    rw [h1, List.length_cons, pow_succ]
    have h2 := charVal_le9 (h c (List.mem_cons_self c cs))
    have h3 := ih (fun x hx => h x (List.mem_cons_of_mem c hx))
    nlinarith [pow_pos (show 0 < 10 by norm_num) cs.length]

theorem take4_exact (l rest : PyStr) (hl : l.length = 4)
    (hd : ∀ c ∈ l, isDig c = true) : take4 (l ++ rest) = some (valOf l, rest) := by
  obtain ⟨a, b, c, d, rfl⟩ : ∃ a b c d, l = [a, b, c, d] := by
    rcases l with _ | ⟨a, _ | ⟨b, _ | ⟨c, _ | ⟨d, _ | ⟨e, t⟩⟩⟩⟩⟩
    · simp at hl
    · simp at hl
    · simp at hl
    · simp at hl
    · exact ⟨a, b, c, d, rfl⟩
    · simp [List.length_cons] at hl
  have ha := hd a (by simp)
  have hb := hd b (by simp)
  have hc := hd c (by simp)
  have hdd := hd d (by simp)
  simp [take4, ha, hb, hc, hdd, valOf]

theorem take4_pad (y : Nat) (hy : y < 10000) (rest : PyStr) :
    take4 (padN 4 y ++ rest) = some (y, rest) := by
  rw [take4_exact _ rest (padN_length 4 y (by norm_num) (by simpa using hy))
    (padN_all_dig 4 y), valOf_padN]

theorem take2_exact (a b : Char) (rest : PyStr) (ha : isDig a = true)
    (hb : isDig b = true) :
    take2 (a :: b :: rest) = some (10 * charVal a + charVal b, rest) := by
  simp [take2, ha, hb]

theorem take2_pad (m : Nat) (hm : m < 100) (rest : PyStr) :
    take2 (padN 2 m ++ rest) = some (m, rest) := by
  obtain ⟨a, b, hab⟩ : ∃ a b, padN 2 m = [a, b] := by
    have hl : (padN 2 m).length = 2 := padN_length 2 m (by norm_num) (by simpa using hm)
    rcases hp : padN 2 m with _ | ⟨a, _ | ⟨b, _ | ⟨c, t⟩⟩⟩ <;> rw [hp] at hl <;>
      simp at hl
    exact ⟨a, b, rfl⟩
  have ha := padN_all_dig 2 m a (by rw [hab]; simp)
  have hb := padN_all_dig 2 m b (by rw [hab]; simp)
  have hv : valOf (padN 2 m) = m := valOf_padN 2 m
  rw [hab] at hv ⊢
  rw [List.cons_append, List.cons_append, List.nil_append, take2_exact a b rest ha hb]
  have : valOf [a, b] = 10 * charVal a + charVal b := by
    simp [valOf]
  rw [this] at hv
  rw [hv]

theorem expectChar_cons_self (c : Char) (r : PyStr) : expectChar c (c :: r) = some r := by
  simp [expectChar]

theorem parseTs_renderTs (t : Ts) (h : ValidTs t) : parseTs (renderTs t) = some t := by
  obtain ⟨h1, h2, h3, h4, h5, h6, h7, h8⟩ := h
  have c1 : (t.month < 1 ∨ 12 < t.month) = False := eq_false (by omega)
  have c2 : (t.day < 1 ∨ 31 < t.day) = False := eq_false (by omega)
  have c3 : (23 < t.hour) = False := eq_false (by omega)
  have c4 : (59 < t.minute) = False := eq_false (by omega)
  have c5 : (61 < t.second) = False := eq_false (by omega)
  have hsec : take2 (padN 2 t.second) = some (t.second, []) := by
    have hx := take2_pad t.second (by omega) []
    rwa [List.append_nil] at hx
  simp only [parseTs.eq_def, renderTs, take4_pad t.year h1, expectChar_cons_self,
    take2_pad t.month (by omega), take2_pad t.day (by omega), take2_pad t.hour (by omega),
    take2_pad t.minute (by omega), hsec, c1, c2, c3, c4, c5, if_false]

theorem take4_bound {s : PyStr} {y : Nat} {r : PyStr} (h : take4 s = some (y, r)) :
    y < 10000 := by
  unfold take4 at h
  split at h
  · rename_i a b c d rr
    split at h
    · rename_i hcond
      simp only [Option.some.injEq, Prod.mk.injEq] at h
      obtain ⟨rfl, rfl⟩ := h
      simp only [Bool.and_eq_true] at hcond
      have hv := valOf_lt_pow [a, b, c, d] (by
        intro x hx
        simp only [List.mem_cons, List.not_mem_nil, or_false] at hx
        rcases hx with rfl | rfl | rfl | rfl
        · exact hcond.1.1.1
        · exact hcond.1.1.2
        · exact hcond.1.2
        · exact hcond.2)
      simpa using hv
    · exact Option.noConfusion h
  · exact Option.noConfusion h

theorem parseTs_bounds {s : PyStr} {t : Ts} (h : parseTs s = some t) : ValidTs t := by
  unfold parseTs at h
  repeat' split at h
  all_goals try exact Option.noConfusion h
  simp only [Option.some.injEq] at h
  subst h
  unfold ValidTs
  dsimp only
  exact ⟨take4_bound (by assumption), by omega, by omega, by omega, by omega,
    by omega, by omega, by omega⟩

theorem not_special_of_not_needsQuote {f : PyStr} (h : needsQuote f = false) :
    ∀ c ∈ f, ¬ c = ',' ∧ ¬ c = qChar ∧ ¬ c = '\n' ∧ ¬ c = '\r' := by
  intro c hc
  rw [needsQuote, List.any_eq_false] at h
  have hx := h c hc
  simp only [Bool.or_eq_true, decide_eq_true_eq, not_or] at hx
  exact ⟨hx.1.1.1, hx.1.1.2, hx.1.2, hx.2⟩

theorem csvRun_inField (f : PyStr) (hf : ∀ c ∈ f, ¬ c = ',' ∧ ¬ c = '\n')
    (rest : PyStr) (acc : PyStr) (row : List PyStr) :
    csvRun (f ++ rest) .inField acc row = csvRun rest .inField (acc ++ f) row := by
  induction f generalizing acc with
  | nil => simp
  | cons c f' ih =>
    have hc := hf c (List.mem_cons_self c f')
    rw [List.cons_append, csvRun, if_neg hc.2, if_neg hc.1,
      ih (fun x hx => hf x (List.mem_cons_of_mem c hx)) (acc ++ [c]), List.append_assoc]
    rfl

theorem csvRun_inQuoted (f : PyStr) (rest : PyStr) (acc : PyStr) (row : List PyStr) :
    csvRun (escField f ++ qChar :: rest) .inQuoted acc row =
      csvRun rest .qq (acc ++ f) row := by
  induction f generalizing acc with
  | nil => simp [escField, csvRun]
  | cons c f' ih =>
    by_cases hc : c = qChar
    · subst hc
      rw [escField, if_pos rfl, List.cons_append, List.cons_append, csvRun, if_pos rfl,
        csvRun, if_pos rfl, ih (acc ++ [qChar]), List.append_assoc]
      rfl
    · rw [escField, if_neg hc, List.cons_append, csvRun, if_neg hc,
        ih (acc ++ [c]), List.append_assoc]
      rfl

theorem needsQuote_false_of_ne_true {f : PyStr} (hq : ¬ needsQuote f = true) :
    needsQuote f = false := by
  revert hq; cases needsQuote f <;> simp

theorem csvRun_field_comma (f : PyStr) (rest : PyStr) (row : List PyStr) :
    csvRun (encodeField f ++ ',' :: rest) .sf [] row = csvRun rest .sf [] (row ++ [f]) := by
  by_cases hq : needsQuote f = true
  · rw [encodeField, if_pos hq, List.cons_append, csvRun,
      if_neg (show ¬ qChar = '\n' by decide), if_neg (show ¬ qChar = ',' by decide),
      if_pos rfl, List.append_assoc, List.singleton_append, csvRun_inQuoted f (',' :: rest),
      List.nil_append, csvRun, if_neg (show ¬ (',' : Char) = qChar by decide),
      if_neg (show ¬ (',' : Char) = '\n' by decide), if_pos rfl]
  · have hq' := needsQuote_false_of_ne_true hq
    rw [encodeField, if_neg hq]
    cases f with
    | nil =>
      rw [List.nil_append, csvRun, if_neg (show ¬ (',' : Char) = '\n' by decide), if_pos rfl]
    | cons a f' =>
      have ha := not_special_of_not_needsQuote hq' a (List.mem_cons_self a f')
      rw [List.cons_append, csvRun, if_neg ha.2.2.1, if_neg ha.1, if_neg ha.2.1,
        csvRun_inField f'
          (fun x hx =>
            ⟨(not_special_of_not_needsQuote hq' x (List.mem_cons_of_mem a hx)).1,
             (not_special_of_not_needsQuote hq' x (List.mem_cons_of_mem a hx)).2.2.1⟩)
          (',' :: rest) [a] row,
        List.singleton_append, csvRun, if_neg (show ¬ (',' : Char) = '\n' by decide),
        if_pos rfl]

theorem csvRun_field_nl (f : PyStr) (rest : PyStr) (row : List PyStr) :
    csvRun (encodeField f ++ '\n' :: rest) .sf [] row =
      (row ++ [f]) :: csvRun rest .sr [] [] := by
  by_cases hq : needsQuote f = true
  · rw [encodeField, if_pos hq, List.cons_append, csvRun,
      if_neg (show ¬ qChar = '\n' by decide), if_neg (show ¬ qChar = ',' by decide),
      if_pos rfl, List.append_assoc, List.singleton_append, csvRun_inQuoted f ('\n' :: rest),
      List.nil_append, csvRun, if_neg (show ¬ ('\n' : Char) = qChar by decide),
      if_pos rfl]
  · have hq' := needsQuote_false_of_ne_true hq
    rw [encodeField, if_neg hq]
    cases f with
    | nil =>
      rw [List.nil_append, csvRun, if_pos rfl]
    | cons a f' =>
      have ha := not_special_of_not_needsQuote hq' a (List.mem_cons_self a f')
      rw [List.cons_append, csvRun, if_neg ha.2.2.1, if_neg ha.1, if_neg ha.2.1,
        csvRun_inField f'
          (fun x hx =>
            ⟨(not_special_of_not_needsQuote hq' x (List.mem_cons_of_mem a hx)).1,
             (not_special_of_not_needsQuote hq' x (List.mem_cons_of_mem a hx)).2.2.1⟩)
          ('\n' :: rest) [a] row,
        List.singleton_append, csvRun, if_pos rfl]

theorem csvRun_joinEnc (fs : List PyStr) (hne : fs ≠ []) (rest : PyStr) (row : List PyStr) :
    csvRun (joinEnc fs ++ '\n' :: rest) .sf [] row = (row ++ fs) :: csvRun rest .sr [] [] := by
  induction fs generalizing row with
  | nil => exact absurd rfl hne
  | cons f fs' ih =>
    cases fs' with
    | nil =>
      rw [show joinEnc [f] = encodeField f from rfl, csvRun_field_nl]
    | cons g gs =>
      rw [show joinEnc (f :: g :: gs) = encodeField f ++ ',' :: joinEnc (g :: gs) from rfl,
        List.append_assoc, List.cons_append, csvRun_field_comma f _ row,
        ih (by simp) (row ++ [f]), List.append_assoc, List.singleton_append]

theorem csvRun_sr_eq_sf (c : Char) (cs : PyStr) (h : ¬ c = '\n') :
    csvRun (c :: cs) .sr [] [] = csvRun (c :: cs) .sf [] [] := by
  rw [csvRun, csvRun, if_neg h, if_neg h, List.nil_append]

theorem encodeRow_sr (fs : List PyStr) (h2 : 2 ≤ fs.length) (rest : PyStr) :
    csvRun (encodeRow fs ++ rest) .sr [] [] = fs :: csvRun rest .sr [] [] := by
  cases fs with
  | nil => simp at h2
  | cons f fs' =>
    cases fs' with
    | nil => simp at h2
    | cons g gs =>
      have hne : (f :: g :: gs : List PyStr) ≠ [] := by simp
      have key := csvRun_joinEnc (f :: g :: gs) hne rest []
      rw [List.nil_append] at key
      rw [encodeRow, List.append_assoc, List.singleton_append]
      obtain ⟨c, cs, hcs, hcne⟩ : ∃ c cs,
          joinEnc (f :: g :: gs) ++ '\n' :: rest = c :: cs ∧ ¬ c = '\n' := by
        rw [show joinEnc (f :: g :: gs) = encodeField f ++ ',' :: joinEnc (g :: gs) from rfl]
        by_cases hq : needsQuote f = true
        · rw [encodeField, if_pos hq]
          exact ⟨qChar, _, rfl, by decide⟩
        · have hq' := needsQuote_false_of_ne_true hq
          rw [encodeField, if_neg hq]
          cases f with
          | nil => exact ⟨',', _, rfl, by decide⟩
          | cons a f' =>
            have ha := not_special_of_not_needsQuote hq' a (List.mem_cons_self a f')
            exact ⟨a, _, rfl, ha.2.2.1⟩
      rw [hcs, csvRun_sr_eq_sf c cs hcne, ← hcs, key]

theorem parseRows_encodeRows (rows : List (List PyStr)) (h : ∀ r ∈ rows, 2 ≤ r.length) :
    parseRows (rows.map encodeRow).flatten = rows := by
  induction rows with
  | nil => rfl
  | cons r rs ih =>
    rw [List.map_cons, List.flatten_cons, parseRows,
      encodeRow_sr r (h r (List.mem_cons_self r rs)) _]
    rw [show csvRun (rs.map encodeRow).flatten .sr [] [] = parseRows (rs.map encodeRow).flatten
      from rfl, ih (fun x hx => h x (List.mem_cons_of_mem r hx))]

theorem mkPF_canon (sg : Int) (n0 : Nat) (ex : Int) : CanonPF (mkPF sg n0 ex) := by
  rw [mkPF]
  split
  · exact Or.inl rfl
  · exact canonPF_canon _ _

theorem pyFloatOfString_canon {s : PyStr} {v : PyFloat}
    (h : pyFloatOfString s = some v) : CanonPF v := by
  simp only [pyFloatOfString] at h
  split at h
  · simp only [Option.some.injEq] at h
    subst h
    split <;> trivial
  · split at h
    · simp only [Option.some.injEq] at h
      subst h
      trivial
    · simp only [parseDecimalCore] at h
      split at h
      · exact Option.noConfusion h
      · split at h
        · simp only [Option.some.injEq] at h
          subst h
          exact mkPF_canon _ _ _
        · split at h
          · split at h
            · simp only [Option.some.injEq] at h
              subst h
              exact mkPF_canon _ _ _
            · exact Option.noConfusion h
          · exact Option.noConfusion h

theorem decodeRide_ok {row : List PyStr} {i : Nat} {r : Ride}
    (h : decodeRide row i = .ok r) :
    ValidTs r.timestamp ∧ CanonPF r.distance ∧ CanonPF r.duration := by
  unfold decodeRide at h
  repeat' split at h
  all_goals try exact Except.noConfusion h
  simp only [Except.ok.injEq] at h
  subst h
  exact ⟨parseTs_bounds (by assumption), pyFloatOfString_canon (by assumption),
    pyFloatOfString_canon (by assumption)⟩

theorem memYears_single {c y : Nat} (h : memYears (.list [c]) y = .ok true) : y = c := by
  simp only [memYears, Except.ok.injEq] at h
  by_cases hyc : y = c
  · exact hyc
  · rw [List.contains_cons] at h
    simp [hyc] at h

theorem loadRows_mem {ys : YearSet} {rows : List (List PyStr)} {i : Nat}
    {rides : List Ride} (h : loadRows ys rows i = .ok rides) :
    ∀ r ∈ rides, (ValidTs r.timestamp ∧ CanonPF r.distance ∧ CanonPF r.duration) ∧
      memYears ys r.timestamp.year = .ok true := by
  induction rows generalizing i rides with
  | nil =>
    simp only [loadRows, Except.ok.injEq] at h
    subst h
    intro r hr
    exact absurd hr (List.not_mem_nil r)
  | cons row rows ih =>
    unfold loadRows at h
    split at h
    · exact Except.noConfusion h
    · rename_i r hdec
      split at h
      · exact Except.noConfusion h
      · rename_i hmem
        split at h
        · exact Except.noConfusion h
        · rename_i rs hrest
          simp only [Except.ok.injEq] at h
          subst h
          intro x hx
          rcases List.mem_cons.mp hx with rfl | hx
          · exact ⟨decodeRide_ok hdec, hmem⟩
          · exact ih hrest x hx
      · intro x hx
        exact ih h x hx

/-- every ride a successful load with the default filter returns is a
current-year ride with renderable fields. -/
theorem read_db_default_mem {c : Nat} {fs : Store} {rides : List Ride}
    (h : read_db_file c .default fs = .ok rides) :
    ∀ r ∈ rides, (ValidTs r.timestamp ∧ CanonPF r.distance ∧ CanonPF r.duration) ∧
      r.timestamp.year = c := by
  unfold read_db_file at h
  split at h
  · exact Except.noConfusion h
  · rename_i content
    unfold readDbContent at h
    intro r hr
    have hm := loadRows_mem h r hr
    exact ⟨hm.1, memYears_single hm.2⟩

theorem decodeRide_rideFields (r : RideData) (i : Nat) (hts : ValidTs r.timestamp)
    (hd : CanonPF r.distance) (hu : CanonPF r.duration) :
    decodeRide (rideFields r) i = .ok ⟨r, i⟩ := by
  simp only [rideFields, decodeRide, parseTs_renderTs r.timestamp hts,
    pyFloatOfString_pyRepr r.distance hd, pyFloatOfString_pyRepr r.duration hu]

theorem parseRows_writeAll (rides : List Ride) :
    parseRows (writeAll rides) = rides.map fun r => rideFields r.toRideData := by
  rw [writeAll,
    show (rides.map fun r => encodeRow (rideFields r.toRideData)) =
      (rides.map fun r => rideFields r.toRideData).map encodeRow from by
        rw [List.map_map]; rfl]
  apply parseRows_encodeRows
  intro x hx
  rw [List.mem_map] at hx
  obtain ⟨r, _, rfl⟩ := hx
  simp [rideFields]

theorem loadRows_writeAll (c : Nat) (rides : List Ride) (i : Nat)
    (h : ∀ r ∈ rides, (ValidTs r.timestamp ∧ CanonPF r.distance ∧ CanonPF r.duration) ∧
      r.timestamp.year = c) :
    loadRows (.list [c]) (rides.map fun r => rideFields r.toRideData) i =
      .ok (reindexFrom i rides) := by
  induction rides generalizing i with
  | nil => rfl
  | cons r rs ih =>
    have hr := h r (List.mem_cons_self r rs)
    have hmem : memYears (.list [c]) (Ride.mk r.toRideData i).timestamp.year = .ok true := by
      simp only [memYears, Except.ok.injEq]
      have hy := hr.2
      rw [show (Ride.mk r.toRideData i).timestamp.year = r.timestamp.year from rfl, hy]
      simp
    simp only [List.map_cons, loadRows,
      decodeRide_rideFields r.toRideData i hr.1.1 hr.1.2.1 hr.1.2.2, hmem,
      ih (i + 1) (fun x hx => h x (List.mem_cons_of_mem r hx))]
    rfl

theorem writeAll_reindex (i : Nat) (rides : List Ride) :
    writeAll (reindexFrom i rides) = writeAll rides := by
  induction rides generalizing i with
  | nil => rfl
  | cons r rs ih =>
    rw [reindexFrom, writeAll, writeAll, List.map_cons, List.map_cons, List.flatten_cons,
      List.flatten_cons]
    have hh := ih (i + 1)
    rw [writeAll, writeAll] at hh
    rw [hh]

theorem loadRows_eq_spec (ys : List Nat) (rows : List (List PyStr)) (i : Nat) :
    loadRows (.list ys) rows i =
      match decodeAll rows i with
      | .error e => .error e
      | .ok rs => .ok (rs.filter fun r => ys.contains r.timestamp.year) := by
  induction rows generalizing i with
  | nil => rfl
  | cons row rows ih =>
    cases hdec : decodeRide row i with
    | error e => simp only [loadRows, decodeAll, hdec]
    | ok r =>
      simp only [loadRows, decodeAll, hdec, memYears]
      cases hc : ys.contains r.timestamp.year with
      | true =>
        simp only [hc, ih (i + 1)]
        cases hrest : decodeAll rows (i + 1) with
        | error e => rfl
        | ok rs =>
          simp only [hrest, List.filter_cons, hc, if_true]
      | false =>
        simp only [hc, ih (i + 1)]
        cases hrest : decodeAll rows (i + 1) with
        | error e => rfl
        | ok rs =>
          simp only [hrest, List.filter_cons, hc, Bool.false_eq_true, if_false]

theorem dropWhile_idem (p : Char → Bool) (l : PyStr) :
    (l.dropWhile p).dropWhile p = l.dropWhile p := by
  induction l with
  | nil => rfl
  | cons c cs ih =>
    by_cases h : p c = true
    · rw [List.dropWhile_cons, if_pos h]
      exact ih
    · rw [List.dropWhile_cons, if_neg h, List.dropWhile_cons, if_neg h]

theorem dropWhileFixOfPre {p : Char → Bool} {X Y : PyStr}
    (hX : X.dropWhile p = X) (hp : Y <+: X) : Y.dropWhile p = Y := by
  cases Y with
  | nil => rfl
  | cons c cs =>
    cases X with
    | nil =>
      have := List.prefix_nil.mp hp
      exact absurd this (by simp)
    | cons x xs =>
      obtain ⟨hcx, _⟩ := List.cons_prefix_cons.mp hp
      subst hcx
      have hpx : p c = false := by
        by_contra hpx
        have hpx' : p c = true := by revert hpx; cases p c <;> simp
        rw [List.dropWhile_cons, if_pos hpx'] at hX
        have hlen := congrArg List.length hX
        have hle : (xs.dropWhile p).length ≤ xs.length :=
          (List.dropWhile_suffix p).sublist.length_le
        simp only [List.length_cons] at hlen
        omega
      rw [List.dropWhile_cons, if_neg (by rw [hpx]; exact Bool.false_ne_true)]

theorem rdropPre (p : Char → Bool) (l : PyStr) :
    (l.reverse.dropWhile p).reverse <+: l := by
  obtain ⟨t, ht⟩ := List.dropWhile_suffix (l := l.reverse) p
  exact ⟨t.reverse, by rw [← List.reverse_append, ht, List.reverse_reverse]⟩

theorem pyStrip_idem (l : PyStr) : pyStrip (pyStrip l) = pyStrip l := by
  have hA : (l.dropWhile pyIsSpace).dropWhile pyIsSpace = l.dropWhile pyIsSpace :=
    dropWhile_idem _ l
  have hBpre : pyStrip l <+: l.dropWhile pyIsSpace := rdropPre _ _
  have hBfix : (pyStrip l).dropWhile pyIsSpace = pyStrip l :=
    dropWhileFixOfPre hA hBpre
  rw [show pyStrip (pyStrip l) =
      (((pyStrip l).dropWhile pyIsSpace).reverse.dropWhile pyIsSpace).reverse from rfl,
    hBfix, show (pyStrip l).reverse = (l.dropWhile pyIsSpace).reverse.dropWhile pyIsSpace
      from List.reverse_reverse _, dropWhile_idem]
  rfl

theorem pyFloatOfString_strip (s : PyStr) :
    pyFloatOfString (pyStrip s) = pyFloatOfString s := by
  simp only [pyFloatOfString, pyStrip_idem]

theorem univNewlinesAux_noCR (f : Nat) (l : PyStr) : NoCR (univNewlinesAux f l) := by
  induction f generalizing l with
  | zero => intro c hc; exact absurd hc (List.not_mem_nil c)
  | succ f ih =>
    cases l with
    | nil => intro c hc; exact absurd hc (List.not_mem_nil c)
    | cons a rest =>
      rw [univNewlinesAux]
      split
      · intro c hc
        rcases List.mem_cons.mp hc with rfl | hc
        · decide
        · exact ih _ c hc
      · rename_i ha
        intro c hc
        rcases List.mem_cons.mp hc with rfl | hc
        · exact ha
        · exact ih _ c hc

theorem univNewlines_noCR (l : PyStr) : NoCR (univNewlines l) :=
  univNewlinesAux_noCR l.length l

theorem univNewlinesAux_eq_self (f : Nat) (l : PyStr) (h : NoCR l)
    (hf : l.length ≤ f) : univNewlinesAux f l = l := by
  induction f generalizing l with
  | zero =>
    cases l with
    | nil => rfl
    | cons a rest => simp at hf
  | succ f ih =>
    cases l with
    | nil => rfl
    | cons a rest =>
      have ha : ¬ a = '\r' := h a (List.mem_cons_self a rest)
      have hlen : rest.length ≤ f := by
        simp only [List.length_cons] at hf
        omega
      rw [univNewlinesAux, if_neg ha,
        ih rest (fun x hx => h x (List.mem_cons_of_mem a hx)) hlen]

theorem univNewlines_eq_self (l : PyStr) (h : NoCR l) : univNewlines l = l :=
  univNewlinesAux_eq_self l.length l h (le_refl _)

theorem ne_cr_of_isDig {c : Char} (h : isDig c = true) : ¬ c = '\r' := by
  rintro rfl; exact absurd h (by decide)

theorem renderTs_noCR (t : Ts) : NoCR (renderTs t) := by
  intro c hc
  simp only [renderTs, List.mem_append, List.mem_cons] at hc
  rcases hc with hc | rfl | hc | rfl | hc | rfl | hc | rfl | hc | rfl | hc
  · exact ne_cr_of_isDig (padN_all_dig _ _ c hc)
  · decide
  · exact ne_cr_of_isDig (padN_all_dig _ _ c hc)
  · decide
  · exact ne_cr_of_isDig (padN_all_dig _ _ c hc)
  · decide
  · exact ne_cr_of_isDig (padN_all_dig _ _ c hc)
  · decide
  · exact ne_cr_of_isDig (padN_all_dig _ _ c hc)
  · decide
  · exact ne_cr_of_isDig (padN_all_dig _ _ c hc)

theorem pyRepr_noCR (v : PyFloat) : NoCR (pyRepr v) := by
  cases v with
  | inf => unfold NoCR; decide
  | ninf => unfold NoCR; decide
  | nan => unfold NoCR; decide
  | finite n e =>
    intro c hc
    simp only [pyRepr, List.append_assoc, List.mem_append, List.mem_cons] at hc
    rcases hc with hc | hc | rfl | hc
    · split at hc
      · rw [List.mem_singleton] at hc; subst hc; decide
      · exact absurd hc (List.not_mem_nil c)
    · exact ne_cr_of_isDig (natStr_all_dig _ c hc)
    · decide
    · split at hc
      · rw [List.mem_singleton] at hc; subst hc; decide
      · exact ne_cr_of_isDig (padN_all_dig _ _ c hc)

theorem escField_mem {f : PyStr} {c : Char} (h : c ∈ escField f) : c ∈ f ∨ c = qChar := by
  induction f with
  | nil => exact absurd h (List.not_mem_nil c)
  | cons a f' ih =>
    rw [escField] at h
    split at h
    · rcases List.mem_cons.mp h with rfl | h
      · exact Or.inr rfl
      · rcases List.mem_cons.mp h with rfl | h
        · exact Or.inr rfl
        · rcases ih h with h | h
          · exact Or.inl (List.mem_cons_of_mem a h)
          · exact Or.inr h
    · rcases List.mem_cons.mp h with rfl | h
      · exact Or.inl (List.mem_cons_self _ _)
      · rcases ih h with h | h
        · exact Or.inl (List.mem_cons_of_mem a h)
        · exact Or.inr h

theorem encodeField_noCR {f : PyStr} (h : NoCR f) : NoCR (encodeField f) := by
  rw [encodeField]
  split
  · intro c hc
    rcases List.mem_cons.mp hc with rfl | hc
    · decide
    · rcases List.mem_append.mp hc with hc | hc
      · rcases escField_mem hc with hc | rfl
        · exact h c hc
        · decide
      · rw [List.mem_singleton] at hc; subst hc; decide
  · exact h

theorem joinEnc_noCR (fs : List PyStr) (h : ∀ f ∈ fs, NoCR f) : NoCR (joinEnc fs) := by
  induction fs with
  | nil => intro c hc; exact absurd hc (List.not_mem_nil c)
  | cons f fs' ih =>
    cases fs' with
    | nil =>
      rw [show joinEnc [f] = encodeField f from rfl]
      exact encodeField_noCR (h f (List.mem_cons_self f []))
    | cons g gs =>
      rw [show joinEnc (f :: g :: gs) = encodeField f ++ ',' :: joinEnc (g :: gs) from rfl]
      intro c hc
      rcases List.mem_append.mp hc with hc | hc
      · exact encodeField_noCR (h f (List.mem_cons_self _ _)) c hc
      · rcases List.mem_cons.mp hc with rfl | hc
        · decide
        · exact ih (fun x hx => h x (List.mem_cons_of_mem f hx)) c hc

theorem encodeRow_noCR (fs : List PyStr) (h : ∀ f ∈ fs, NoCR f) :
    NoCR (encodeRow fs) := by
  rw [encodeRow]
  intro c hc
  rcases List.mem_append.mp hc with hc | hc
  · exact joinEnc_noCR fs h c hc
  · rw [List.mem_singleton] at hc; subst hc; decide

theorem rideFields_noCR (r : RideData) (hc : NoCR r.comment) (hu : NoCR r.url) :
    ∀ f ∈ rideFields r, NoCR f := by
  intro f hf
  simp only [rideFields, List.mem_cons, List.not_mem_nil, or_false] at hf
  rcases hf with rfl | rfl | rfl | rfl | rfl
  · exact renderTs_noCR r.timestamp
  · exact pyRepr_noCR r.distance
  · exact pyRepr_noCR r.duration
  · exact hc
  · exact hu

theorem writeAll_noCR (rides : List Ride)
    (h : ∀ r ∈ rides, NoCR r.comment ∧ NoCR r.url) : NoCR (writeAll rides) := by
  induction rides with
  | nil => intro c hc; exact absurd hc (List.not_mem_nil c)
  | cons r rs ih =>
    rw [writeAll, List.map_cons, List.flatten_cons]
    intro c hc
    rcases List.mem_append.mp hc with hc | hc
    · have hr := h r (List.mem_cons_self r rs)
      exact encodeRow_noCR _ (rideFields_noCR r.toRideData hr.1 hr.2) c hc
    · have hrest := ih (fun x hx => h x (List.mem_cons_of_mem r hx))
      rw [writeAll] at hrest
      exact hrest c hc

theorem csvRun_noCR (input : PyStr) :
    ∀ (st : CsvSt) (acc : PyStr) (row : List PyStr),
      NoCR input → NoCR acc → (∀ f ∈ row, NoCR f) →
      ∀ r ∈ csvRun input st acc row, ∀ f ∈ r, NoCR f := by
  induction input with
  | nil =>
    intro st acc row hi ha hr r hrm f hf
    cases st with
    | sr => exact absurd hrm (List.not_mem_nil r)
    | sf =>
      rw [show csvRun [] .sf acc row = [row ++ [[]]] from rfl, List.mem_singleton] at hrm
      subst hrm
      rcases List.mem_append.mp hf with hf | hf
      · exact hr f hf
      · rw [List.mem_singleton] at hf
        subst hf
        intro c hc
        exact absurd hc (List.not_mem_nil c)
    | inField =>
      rw [show csvRun [] .inField acc row = [row ++ [acc]] from rfl,
        List.mem_singleton] at hrm
      subst hrm
      rcases List.mem_append.mp hf with hf | hf
      · exact hr f hf
      · rw [List.mem_singleton] at hf; subst hf; exact ha
    | inQuoted =>
      rw [show csvRun [] .inQuoted acc row = [row ++ [acc]] from rfl,
        List.mem_singleton] at hrm
      subst hrm
      rcases List.mem_append.mp hf with hf | hf
      · exact hr f hf
      · rw [List.mem_singleton] at hf; subst hf; exact ha
    | qq =>
      rw [show csvRun [] .qq acc row = [row ++ [acc]] from rfl,
        List.mem_singleton] at hrm
      subst hrm
      rcases List.mem_append.mp hf with hf | hf
      · exact hr f hf
      · rw [List.mem_singleton] at hf; subst hf; exact ha
  | cons c cs ih =>
    intro st acc row hi ha hr
    have hc : ¬ c = '\r' := hi c (List.mem_cons_self c cs)
    have hcs : NoCR cs := fun x hx => hi x (List.mem_cons_of_mem c hx)
    have hnil : NoCR ([] : PyStr) := fun x hx => absurd hx (List.not_mem_nil x)
    have hrownil : ∀ f ∈ ([] : List PyStr), NoCR f :=
      fun f hf => absurd hf (List.not_mem_nil f)
    have haccc : NoCR (acc ++ [c]) := by
      intro x hx
      rcases List.mem_append.mp hx with hx | hx
      · exact ha x hx
      · rw [List.mem_singleton] at hx; subst hx; exact hc
    have haccq : NoCR (acc ++ [qChar]) := by
      intro x hx
      rcases List.mem_append.mp hx with hx | hx
      · exact ha x hx
      · rw [List.mem_singleton] at hx; subst hx; decide
    have hrowacc : ∀ f ∈ row ++ [acc], NoCR f := by
      intro f hf
      rcases List.mem_append.mp hf with hf | hf
      · exact hr f hf
      · rw [List.mem_singleton] at hf; subst hf; exact ha
    have hrowempty : ∀ f ∈ row ++ [[]], NoCR f := by
      intro f hf
      rcases List.mem_append.mp hf with hf | hf
      · exact hr f hf
      · rw [List.mem_singleton] at hf; subst hf; exact hnil
    have hsing : ∀ f ∈ [([] : PyStr)], NoCR f := by
      intro f hf
      rw [List.mem_singleton] at hf
      subst hf
      exact hnil
    have hconsc : NoCR [c] := by
      intro x hx
      rw [List.mem_singleton] at hx
      subst hx
      exact hc
    cases st with
    | sr =>
      rw [show csvRun (c :: cs) .sr acc row =
          (if c = '\n' then [] :: csvRun cs .sr [] []
           else if c = ',' then csvRun cs .sf [] [[]]
           else if c = qChar then csvRun cs .inQuoted [] []
           else csvRun cs .inField [c] []) from rfl]
      by_cases h1 : c = '\n'
      · rw [if_pos h1]
        intro r hrm f hf
        rcases List.mem_cons.mp hrm with rfl | hrm
        · exact absurd hf (List.not_mem_nil f)
        · exact ih .sr [] [] hcs hnil hrownil r hrm f hf
      · rw [if_neg h1]
        by_cases h2 : c = ','
        · rw [if_pos h2]
          exact ih .sf [] [[]] hcs hnil hsing
        · rw [if_neg h2]
          by_cases h3 : c = qChar
          · rw [if_pos h3]
            exact ih .inQuoted [] [] hcs hnil hrownil
          · rw [if_neg h3]
            exact ih .inField [c] [] hcs hconsc hrownil
    | sf =>
      rw [show csvRun (c :: cs) .sf acc row =
          (if c = '\n' then (row ++ [[]]) :: csvRun cs .sr [] []
           else if c = ',' then csvRun cs .sf [] (row ++ [[]])
           else if c = qChar then csvRun cs .inQuoted [] row
           else csvRun cs .inField [c] row) from rfl]
      by_cases h1 : c = '\n'
      · rw [if_pos h1]
        intro r hrm f hf
        rcases List.mem_cons.mp hrm with rfl | hrm
        · exact hrowempty f hf
        · exact ih .sr [] [] hcs hnil hrownil r hrm f hf
      · rw [if_neg h1]
        by_cases h2 : c = ','
        · rw [if_pos h2]
          exact ih .sf [] (row ++ [[]]) hcs hnil hrowempty
        · rw [if_neg h2]
          by_cases h3 : c = qChar
          · rw [if_pos h3]
            exact ih .inQuoted [] row hcs hnil hr
          · rw [if_neg h3]
            exact ih .inField [c] row hcs hconsc hr
    | inField =>
      rw [show csvRun (c :: cs) .inField acc row =
          (if c = '\n' then (row ++ [acc]) :: csvRun cs .sr [] []
           else if c = ',' then csvRun cs .sf [] (row ++ [acc])
           else csvRun cs .inField (acc ++ [c]) row) from rfl]
      by_cases h1 : c = '\n'
      · rw [if_pos h1]
        intro r hrm f hf
        rcases List.mem_cons.mp hrm with rfl | hrm
        · exact hrowacc f hf
        · exact ih .sr [] [] hcs hnil hrownil r hrm f hf
      · rw [if_neg h1]
        by_cases h2 : c = ','
        · rw [if_pos h2]
          exact ih .sf [] (row ++ [acc]) hcs hnil hrowacc
        · rw [if_neg h2]
          exact ih .inField (acc ++ [c]) row hcs haccc hr
    | inQuoted =>
      rw [show csvRun (c :: cs) .inQuoted acc row =
          (if c = qChar then csvRun cs .qq acc row
           else csvRun cs .inQuoted (acc ++ [c]) row) from rfl]
      by_cases h1 : c = qChar
      · rw [if_pos h1]
        exact ih .qq acc row hcs ha hr
      · rw [if_neg h1]
        exact ih .inQuoted (acc ++ [c]) row hcs haccc hr
    | qq =>
      rw [show csvRun (c :: cs) .qq acc row =
          (if c = qChar then csvRun cs .inQuoted (acc ++ [qChar]) row
           else if c = '\n' then (row ++ [acc]) :: csvRun cs .sr [] []
           else if c = ',' then csvRun cs .sf [] (row ++ [acc])
           else csvRun cs .inField (acc ++ [c]) row) from rfl]
      by_cases h1 : c = qChar
      · rw [if_pos h1]
        exact ih .inQuoted (acc ++ [qChar]) row hcs haccq hr
      · rw [if_neg h1]
        by_cases h2 : c = '\n'
        · rw [if_pos h2]
          intro r hrm f hf
          rcases List.mem_cons.mp hrm with rfl | hrm
          · exact hrowacc f hf
          · exact ih .sr [] [] hcs hnil hrownil r hrm f hf
        · rw [if_neg h2]
          by_cases h3 : c = ','
          · rw [if_pos h3]
            exact ih .sf [] (row ++ [acc]) hcs hnil hrowacc
          · rw [if_neg h3]
            exact ih .inField (acc ++ [c]) row hcs haccc hr

theorem parseRows_noCR (content : PyStr) (h : NoCR content) :
    ∀ r ∈ parseRows content, ∀ f ∈ r, NoCR f :=
  csvRun_noCR content .sr [] [] h (fun x hx => absurd hx (List.not_mem_nil x))
    (fun f hf => absurd hf (List.not_mem_nil f))

theorem decodeRide_fields {row : List PyStr} {i : Nat} {r : Ride}
    (h : decodeRide row i = .ok r) : r.comment ∈ row ∧ r.url ∈ row := by
  unfold decodeRide at h
  repeat' split at h
  all_goals try exact Except.noConfusion h
  simp only [Except.ok.injEq] at h
  subst h
  constructor
  · simp [List.mem_cons]
  · simp [List.mem_cons]

theorem loadRows_fields {ys : YearSet} {rows : List (List PyStr)} {i : Nat}
    {rides : List Ride} (h : loadRows ys rows i = .ok rides)
    (hrows : ∀ row ∈ rows, ∀ f ∈ row, NoCR f) :
    ∀ r ∈ rides, NoCR r.comment ∧ NoCR r.url := by
  induction rows generalizing i rides with
  | nil =>
    simp only [loadRows, Except.ok.injEq] at h
    subst h
    intro r hr
    exact absurd hr (List.not_mem_nil r)
  | cons row rows ih =>
    have hrow := hrows row (List.mem_cons_self row rows)
    have hrest : ∀ x ∈ rows, ∀ f ∈ x, NoCR f :=
      fun x hx => hrows x (List.mem_cons_of_mem row hx)
    unfold loadRows at h
    split at h
    · exact Except.noConfusion h
    · rename_i r hdec
      split at h
      · exact Except.noConfusion h
      · rename_i hmem
        split at h
        · exact Except.noConfusion h
        · rename_i rs hrestload
          simp only [Except.ok.injEq] at h
          subst h
          intro x hx
          rcases List.mem_cons.mp hx with rfl | hx
          · have hf := decodeRide_fields hdec
            exact ⟨hrow _ hf.1, hrow _ hf.2⟩
          · exact ih hrestload hrest x hx
      · intro x hx
        exact ih h hrest x hx

/-- comments and urls of rides a successful load returns came through the
universal-newline translation, hence contain no carriage return. -/
theorem read_db_default_noCR {c : Nat} {fs : Store} {rides : List Ride}
    (h : read_db_file c .default fs = .ok rides) :
    ∀ r ∈ rides, NoCR r.comment ∧ NoCR r.url := by
  unfold read_db_file at h
  split at h
  · exact Except.noConfusion h
  · rename_i content
    unfold readDbContent at h
    exact loadRows_fields h (parseRows_noCR _ (univNewlines_noCR content))

/-- C1: migrate does not preserve records from other calendar years: the
store holds one decodable 2012 ride (returned by a 2012-filtered load),
yet `migrate` with current year 2026 succeeds and rewrites the file to be
empty, permanently discarding the record. -/
theorem C1_migrate_drops_old_year_rides :
    read_db_file 2012 (.many [2012])
        (some "2012-06-23 15:32:12,12,0.60,Around the house,\n".toList) =
      .ok [⟨⟨⟨2012, 6, 23, 15, 32, 12⟩, .finite 12 0, .finite 6 1,
        "Around the house".toList, []⟩, 0⟩] ∧
    migrate 2026 (some "2012-06-23 15:32:12,12,0.60,Around the house,\n".toList) =
      .ok (some []) :=
  ⟨by decide, by decide⟩

/-- C2: on a zero-duration ride the guarded per-row display path yields the
`'nan'` sentinel, but the graph-series path of `get_graph_data` divides
without a guard and raises `ZeroDivisionError` instead of producing the
sentinel. -/
theorem C2_zero_duration_graph_path_raises :
    format_ride_speed ⟨⟨⟨2024, 1, 1, 0, 0, 0⟩, .finite 20 0, .finite 0 0, [], []⟩, 0⟩ =
      "nan".toList ∧
    get_graph_data [⟨⟨⟨2024, 1, 1, 0, 0, 0⟩, .finite 20 0, .finite 0 0, [], []⟩, 0⟩] =
      .error .zeroDivision :=
  ⟨by decide, by decide⟩

/-- C3: `parse_duration` on `"1h"` and `"1:"` (empty minutes part) raises a
`ValueError` — `"1h".split('h')` is `['1', '']` and `float('')` fails — it
does not return `1.0` with minutes defaulting to `0`. -/
theorem C3_parse_duration_empty_minutes_raises :
    parse_duration "1h".toList = .error .valueError ∧
    parse_duration "1:".toList = .error .valueError :=
  ⟨by decide, by decide⟩

/-- C4 counterexample: when the store file does not exist, `read_db_file`
does not return an empty sequence; the `FileNotFoundError` from `open`
propagates. -/
theorem C4_missing_file_not_empty :
    read_db_file 2026 .default none = .error .fileNotFound ∧
    ¬ read_db_file 2026 .default none = .ok [] :=
  ⟨by decide, by decide⟩

/-- C4 (amended): when the store file does not exist, `read_db_file` fails
with the file-not-found error, for every year filter. -/
theorem C4_missing_file_raises (c : Nat) (ya : YearArg) :
    read_db_file c ya none = .error .fileNotFound := rfl

/-- C5: `read_db_file(year='all')` does not return all rides: the string
`'all'` passes the `__contains__` test, so the membership check
`tm_year in 'all'` raises a `TypeError` on the first decoded ride, while
the same store loads fine under an explicit year-list filter. -/
theorem C5_year_all_raises_type_error :
    read_db_file 2026 (.many [2012])
        (some "2012-06-23 15:32:12,12,0.60,Around the house,\n".toList) =
      .ok [⟨⟨⟨2012, 6, 23, 15, 32, 12⟩, .finite 12 0, .finite 6 1,
        "Around the house".toList, []⟩, 0⟩] ∧
    read_db_file 2026 .all
        (some "2012-06-23 15:32:12,12,0.60,Around the house,\n".toList) =
      .error .typeError :=
  ⟨by decide, by decide⟩

/-- C6 counterexample: a ride whose comment contains a carriage return is
not reproduced field for field: the text-mode read translates the CR inside
the quoted field to LF, so the record decodes with a different comment. -/
theorem C6_cr_comment_not_reproduced :
    read_db_file 2026 (.many [2024])
        (add_ride ⟨⟨2024, 1, 1, 10, 0, 0⟩, .finite 20 0, .finite 1 0,
          ['a', '\r', 'b'], []⟩ none) =
      .ok [⟨⟨⟨2024, 1, 1, 10, 0, 0⟩, .finite 20 0, .finite 1 0,
        ['a', '\n', 'b'], []⟩, 0⟩] ∧
    ¬ read_db_file 2026 (.many [2024])
        (add_ride ⟨⟨2024, 1, 1, 10, 0, 0⟩, .finite 20 0, .finite 1 0,
          ['a', '\r', 'b'], []⟩ none) =
      .ok [⟨⟨⟨2024, 1, 1, 10, 0, 0⟩, .finite 20 0, .finite 1 0,
        ['a', '\r', 'b'], []⟩, 0⟩] :=
  ⟨by decide, by decide⟩

/-- C6 (amended): decoding the encoded record reproduces a valid ride
field for field — comment and url may contain the delimiter, the quote
character, even embedded line feeds, but no carriage return (text-mode
reading maps CR and CRLF to LF): appending `encode(ride)` to an empty
store and loading under the ride's own year returns exactly that ride
(with id 0). -/
theorem C6_decode_encode_roundtrip (c : Nat) (r : RideData) (h : ValidRideData r) :
    read_db_file c (.many [r.timestamp.year]) (add_ride r none) =
      .ok [{ toRideData := r, id := 0 }] := by
  obtain ⟨hts, ⟨nd, ed, hdist, hcand, _⟩, ⟨nu, eu, hdur, hcanu⟩, hcom, hurl⟩ := h
  have hdist' : CanonPF r.distance := by rw [hdist]; exact hcand
  have hdur' : CanonPF r.duration := by rw [hdur]; exact hcanu
  have hnocr : NoCR (encodeRideLine r) :=
    encodeRow_noCR _ (rideFields_noCR r hcom hurl)
  show readDbContent c (.many [r.timestamp.year]) (encodeRideLine r) =
    .ok [{ toRideData := r, id := 0 }]
  rw [readDbContent, univNewlines_eq_self _ hnocr,
    show yearSet c (.many [r.timestamp.year]) = .list [r.timestamp.year] from by
      rw [yearSet, if_neg (by simp)]]
  have hrows : parseRows (encodeRideLine r) = [rideFields r] := by
    have hx := encodeRow_sr (rideFields r) (by simp [rideFields]) []
    rw [List.append_nil] at hx
    rw [encodeRideLine, parseRows, hx]
    rfl
  rw [hrows]
  have hmem : memYears (.list [r.timestamp.year]) (Ride.mk r 0).timestamp.year =
      .ok true := by simp [memYears]
  simp only [loadRows, decodeRide_rideFields r 0 hts hdist' hdur', hmem]

/-- C6 witness: the round trip evaluated on a concrete ride whose comment
contains the delimiter and quote characters. -/
theorem C6_witness :
    ValidRideData rideC6 ∧
    read_db_file 2026 (.many [rideC6.timestamp.year]) (add_ride rideC6 none) =
      .ok [{ toRideData := rideC6, id := 0 }] :=
  have hv : ValidRideData rideC6 :=
    ⟨by unfold ValidTs; decide, ⟨75, 0, rfl, Or.inl rfl, by decide⟩,
     ⟨15, 1, rfl, Or.inr (by decide)⟩, by unfold NoCR; decide, by unfold NoCR; decide⟩
  ⟨hv, C6_decode_encode_roundtrip 2026 rideC6 hv⟩

/-- C7: migrate is idempotent: whenever `migrate` succeeds and leaves the
store holding `out`, running it again succeeds and rewrites byte-identical
content. -/
theorem C7_migrate_idempotent (c : Nat) (fs out : Store) (h : migrate c fs = .ok out) :
    migrate c out = .ok out := by
  unfold migrate at h
  split at h
  · exact Except.noConfusion h
  · rename_i rides hread
    simp only [Except.ok.injEq] at h
    subst h
    have hfacts := read_db_default_mem hread
    have hwna : univNewlines (writeAll rides) = writeAll rides :=
      univNewlines_eq_self _ (writeAll_noCR rides (read_db_default_noCR hread))
    have hload : read_db_file c .default (some (writeAll rides)) =
        .ok (reindexFrom 0 rides) := by
      rw [show read_db_file c .default (some (writeAll rides)) =
          readDbContent c .default (writeAll rides) from rfl,
        readDbContent, hwna, parseRows_writeAll,
        show yearSet c .default = .list [c] from rfl,
        loadRows_writeAll c rides 0 hfacts]
    simp only [migrate, hload, writeAll_reindex]

/-- C7 witness: the first migrate normalizes the 2012 store (current year
2012), and the second run reproduces the bytes exactly. -/
theorem C7_witness :
    migrate 2012 (some "2012-06-23 15:32:12,12,0.60,Around the house,\n".toList) =
      .ok (some "2012-06-23 15:32:12,12.0,0.6,Around the house,\n".toList) ∧
    migrate 2012 (some "2012-06-23 15:32:12,12.0,0.6,Around the house,\n".toList) =
      .ok (some "2012-06-23 15:32:12,12.0,0.6,Around the house,\n".toList) :=
  have h1 : migrate 2012 (some "2012-06-23 15:32:12,12,0.60,Around the house,\n".toList) =
      .ok (some "2012-06-23 15:32:12,12.0,0.6,Around the house,\n".toList) := by decide
  ⟨h1, C7_migrate_idempotent 2012 _ _ h1⟩

/-- C8: under any filter that evaluates to a list of years (single year,
list of years, or the default current year), loading equals the spec-side
load: decode every line of the unfiltered file, assign ids by position
among all decoded lines, then keep exactly the rides whose timestamp year
is in the filter. -/
theorem C8_year_filter_ids (c : Nat) (ya : YearArg) (l : List Nat) (content : PyStr)
    (h : yearSet c ya = .list l) :
    readDbContent c ya content = loadSpec l content := by
  rw [readDbContent, h, loadSpec, loadRows_eq_spec]

/-- C8 witness: with a 2022 ride and a 2023 ride, load(2023) returns only
the 2023 ride carrying its unfiltered-file id 1. -/
theorem C8_witness :
    yearSet 2026 (.many [2023]) = .list [2023] ∧
    readDbContent 2026 (.many [2023]) storeC8 = loadSpec [2023] storeC8 ∧
    loadSpec [2023] storeC8 =
      .ok [⟨⟨⟨2023, 6, 2, 11, 0, 0⟩, .finite 20 0, .finite 2 0,
        "second".toList, []⟩, 1⟩] :=
  ⟨by decide, C8_year_filter_ids 2026 (.many [2023]) [2023] storeC8 (by decide),
    by decide⟩

/-- C9: `read_db_file` never modifies the store: for every store state and
year filter the file after the call — whether it returns rides or fails —
is exactly the file before the call. -/
theorem C9_read_db_file_preserves_store (c : Nat) (ya : YearArg) (fs : Store) :
    (read_db_file_st c ya fs).2 = fs := rfl

/-- C10: the plain-decimal branch of `parse_duration` performs no value
validation: every string `float()` accepts is returned as that value
unchanged — including negative values, exponent notation, and the
non-finite `inf`/`nan`. -/
theorem C10_plain_decimal_no_validation (s : PyStr) (v : PyFloat)
    (h : pyFloatOfString s = some v) : parse_duration s = .ok v := by
  simp only [parse_duration, pyFloatOfString_strip, h]

/-- C10 witness: `"-2"`, `"1e3"`, `"inf"` and `"nan"` are all accepted. -/
theorem C10_witness :
    parse_duration "-2".toList = .ok (.finite (-2) 0) ∧
    parse_duration "1e3".toList = .ok (.finite 1000 0) ∧
    parse_duration "inf".toList = .ok .inf ∧
    parse_duration "nan".toList = .ok .nan :=
  ⟨C10_plain_decimal_no_validation _ _ (by decide),
   C10_plain_decimal_no_validation _ _ (by decide),
   C10_plain_decimal_no_validation _ _ (by decide),
   C10_plain_decimal_no_validation _ _ (by decide)⟩

end Bike
